import Mathlib

/-!
A verification development for the `mind_the_gaps` interval-set library
(`src/mind_the_gaps/gaps.py`).  The Python code is shallowly embedded:
pure functions become Lean functions, the sweep-line loop of `_merge`
becomes a fuelled recursion (the fuel is the loop bound `len(a) + len(b)`),
exceptions become `Except` values, and the abstract ordered value type `T`
becomes a `LinearOrder`.
-/

namespace MindTheGaps

/-- The boundary of an endpoint (`Boundary` in gaps.py): `openL` is `"("`
(open and left), `openR` is `")"` (open and right), `closedL` is `"["`
(closed and left), `closedR` is `"]"` (closed and right). -/
inductive Boundary where
  | openL : Boundary
  | openR : Boundary
  | closedL : Boundary
  | closedR : Boundary
deriving DecidableEq

/-- `_BOUNDARY_ORDER` from gaps.py: `{")": 0, "[": 1, "]": 1, "(": 2}`. -/
def boundaryOrder : Boundary → Nat
  | .openR => 0
  | .closedL => 1
  | .closedR => 1
  | .openL => 2

/-- `Endpoint` from gaps.py: an interval endpoint, a value together with a
boundary. -/
structure Endpoint (T : Type) where
  value : T
  boundary : Boundary
deriving DecidableEq

/-- `Endpoint.is_closed`: whether this is a closed endpoint. -/
def Endpoint.is_closed {T : Type} (e : Endpoint T) : Bool :=
  match e.boundary with
  | .closedL => true
  | .closedR => true
  | _ => false

/-- `Endpoint.is_open`: whether this is an open endpoint. -/
def Endpoint.is_open {T : Type} (e : Endpoint T) : Bool :=
  match e.boundary with
  | .openL => true
  | .openR => true
  | _ => false

/-- `Endpoint.is_left`: whether this is a left endpoint. -/
def Endpoint.is_left {T : Type} (e : Endpoint T) : Bool :=
  match e.boundary with
  | .openL => true
  | .closedL => true
  | _ => false

/-- `Endpoint.is_right`: whether this is a right endpoint. -/
def Endpoint.is_right {T : Type} (e : Endpoint T) : Bool :=
  match e.boundary with
  | .openR => true
  | .closedR => true
  | _ => false

/-- `Endpoint.__lt__`: compare by value first; for equal values compare by
`_BOUNDARY_ORDER` rank. -/
def epLT {T : Type} [LinearOrder T] (a b : Endpoint T) : Bool :=
  if a.value ≠ b.value then decide (a.value < b.value)
  else decide (boundaryOrder a.boundary < boundaryOrder b.boundary)

/-- `Endpoint.__eq__`: equal value and equal `_BOUNDARY_ORDER` rank. -/
def epEq {T : Type} [LinearOrder T] (a b : Endpoint T) : Bool :=
  decide (a.value = b.value) &&
    decide (boundaryOrder a.boundary = boundaryOrder b.boundary)

/-- `a > b` on endpoints, as `functools.total_ordering` derives `__gt__` from
`__lt__` and `__eq__`: `not (a < b or a == b)`. -/
def epGT {T : Type} [LinearOrder T] (a b : Endpoint T) : Bool :=
  !(epLT a b || epEq a b)

/-- `sub` from gaps.py: `a` and not `b`. -/
def sub (a b : Bool) : Bool :=
  a && !b

/-- `operator.or_` restricted to the booleans it is applied to in gaps.py. -/
def or_ (a b : Bool) : Bool :=
  a || b

/-- `operator.and_` restricted to booleans. -/
def and_ (a b : Bool) : Bool :=
  a && b

/-- `operator.xor` restricted to booleans. -/
def xor_ (a b : Bool) : Bool :=
  a.xor b

/-- `_endpoint_contains`: whether `value` could be contained in an interval
with the given endpoint (`None` yields `False`). -/
def endpoint_contains {T : Type} [LinearOrder T] :
    Option (Endpoint T) → T → Bool
  | none, _ => false
  | some e, v =>
    if e.value = v then e.is_closed
    else if e.is_left then decide (e.value < v)
    else decide (v < e.value)

/-- `_endpoint_contains_right`: whether `value` with a positive offset could be
contained in an interval with the given endpoint. -/
def endpoint_contains_right {T : Type} [LinearOrder T] :
    Option (Endpoint T) → T → Bool
  | none, _ => false
  | some e, v =>
    if e.is_left then !(decide (v < e.value))
    else decide (v < e.value)

/-- The endpoints one iteration of the `_merge` loop appends, from the state
`inside_region` and the two current endpoints at scanline `s` (gaps.py lines
145-168). -/
def emit {T : Type} [LinearOrder T] (op : Bool → Bool → Bool)
    (ca cb : Option (Endpoint T)) (inside : Bool) (s : T) : List (Endpoint T) :=
  let at_s := op (endpoint_contains ca s) (endpoint_contains cb s)
  let right_s := op (endpoint_contains_right ca s) (endpoint_contains_right cb s)
  if inside then
    if !right_s then [⟨s, if at_s then .closedR else .openR⟩]
    else if !at_s then [⟨s, .openR⟩, ⟨s, .openL⟩]
    else []
  else
    if right_s then [⟨s, if at_s then .closedL else .openL⟩]
    else if at_s then [⟨s, .closedL⟩, ⟨s, .closedR⟩]
    else []

/-- The value of `inside_region` after one iteration of the `_merge` loop.
In every branch of the loop body it ends up equal to `right_of_scanline`. -/
def nextInside {T : Type} [LinearOrder T] (op : Bool → Bool → Bool)
    (ca cb : Option (Endpoint T)) (s : T) : Bool :=
  op (endpoint_contains_right ca s) (endpoint_contains_right cb s)

/-- The `while` loop of `_merge` (gaps.py lines 129-168), as a fuelled
recursion.  The state is (`current_a`, `current_b`, `inside_region`, the
unconsumed suffix of `a`, the unconsumed suffix of `b`); `current_a`/`current_b`
persist after their list is exhausted, exactly as the Python locals do.  Each
iteration consumes at least one endpoint, so fuel `len a + len b` (what
`merge` supplies) always suffices; the fuel-0 branch is unreachable from
`merge`. -/
def mergeGo {T : Type} [LinearOrder T] (op : Bool → Bool → Bool) :
    Nat → Option (Endpoint T) → Option (Endpoint T) → Bool →
      List (Endpoint T) → List (Endpoint T) → List (Endpoint T)
  | 0, _, _, _, _, _ => []
  | _ + 1, _, _, _, [], [] => []
  | fuel + 1, ca, _, inside, [], eb :: rbs =>
    emit op ca (some eb) inside eb.value ++
      mergeGo op fuel ca (some eb) (nextInside op ca (some eb) eb.value) [] rbs
  | fuel + 1, _, cb, inside, ea :: ras, [] =>
    emit op (some ea) cb inside ea.value ++
      mergeGo op fuel (some ea) cb (nextInside op (some ea) cb ea.value) ras []
  | fuel + 1, _, _, inside, ea :: ras, eb :: rbs =>
    let s := min ea.value eb.value
    let ra := if ea.value = s then ras else ea :: ras
    let rb := if eb.value = s then rbs else eb :: rbs
    emit op (some ea) (some eb) inside s ++
      mergeGo op fuel (some ea) (some eb) (nextInside op (some ea) (some eb) s) ra rb

/-- `_merge`: merge two sorted lists of endpoints with a given set operation. -/
def merge {T : Type} [LinearOrder T] (a b : List (Endpoint T))
    (op : Bool → Bool → Bool) : List (Endpoint T) :=
  mergeGo op (a.length + b.length) none none false a b

/-- The distinct Python exceptions gaps.py can raise.  The first four are the
`ValueError`s of `Gaps.__init__` ("Need an even number of endpoints.",
"Expected left boundary...", "Expected right boundary...", "Endpoints
unsorted."); the next three are the `ValueError`s reachable from
`Gaps.from_string` ("Gap string must start and end with curly braces...",
"Invalid endpoint...", and the `ValueError` of `int()`/`float()` inside
`_to_number`); `indexError` is the `IndexError` of an out-of-range string
index. -/
inductive PyErr where
  | oddCount : PyErr
  | expectedLeft : PyErr
  | expectedRight : PyErr
  | unsorted : PyErr
  | badBraces : PyErr
  | invalidEndpoint : PyErr
  | badNumber : PyErr
  | indexError : PyErr
deriving DecidableEq

/-- Whether an `Except` computation succeeded (did not raise). -/
def isOkB {ε α : Type _} : Except ε α → Bool
  | .ok _ => true
  | .error _ => false

/-- Whether a same-valued adjacent pair of boundaries is allowed to stay:
`a.boundary + b.boundary in {"[]", ")("}` in `Gaps.__init__`. -/
def comboOK : Boundary → Boundary → Bool
  | .closedL, .closedR => true
  | .openR, .openL => true
  | _, _ => false

/-- The promotion loop of `Gaps.__init__` (gaps.py lines 202-211): raw values
become closed endpoints by index parity, explicit endpoints are checked for
the correct side.  `i` is the index of the first list element. -/
def promote {T : Type} [LinearOrder T] :
    Nat → List (T ⊕ Endpoint T) → Except PyErr (List (Endpoint T))
  | _, [] => .ok []
  | i, .inl v :: rest => do
    let tail ← promote (i + 1) rest
    .ok (⟨v, if i % 2 = 0 then .closedL else .closedR⟩ :: tail)
  | i, .inr e :: rest =>
    if decide (i % 2 = 0) && e.is_right then .error .expectedLeft
    else if decide (i % 2 = 1) && e.is_left then .error .expectedRight
    else do
      let tail ← promote (i + 1) rest
      .ok (e :: tail)

/-- The fix-up `while` loop of `Gaps.__init__` (gaps.py lines 213-224): raise
on an unsorted adjacent pair; delete a same-valued adjacent pair whose
boundaries are not `"[]"` or `")("` and re-examine from the same index (so the
element before the deleted pair is never re-checked); otherwise advance. -/
def fixLoop {T : Type} [LinearOrder T] :
    List (Endpoint T) → Except PyErr (List (Endpoint T))
  | a :: b :: rest =>
    if epGT a b then .error .unsorted
    else if a.value = b.value ∧ comboOK a.boundary b.boundary = false then
      fixLoop rest
    else do
      let tail ← fixLoop (b :: rest)
      .ok (a :: tail)
  | l => .ok l

/-- `Gaps.__init__` (gaps.py lines 195-226) on a list of raw values
(`Sum.inl`) and endpoints (`Sum.inr`): parity check, promotion, fix-up loop.
Returns the `endpoints` attribute of the constructed `Gaps`, or the raised
`ValueError`. -/
def gapsInit {T : Type} [LinearOrder T] (input : List (T ⊕ Endpoint T)) :
    Except PyErr (List (Endpoint T)) :=
  if input.length % 2 = 1 then .error .oddCount
  else do
    let es ← promote 0 input
    fixLoop es

/-- `Gaps.__init__` applied to a list that is already all `Endpoint`s, as the
operators and `from_string` do. -/
def gapsInitEp {T : Type} [LinearOrder T] (l : List (Endpoint T)) :
    Except PyErr (List (Endpoint T)) :=
  gapsInit (l.map Sum.inr)

/-- `Gaps.__or__`: `type(self)(_merge(self.endpoints, other.endpoints, or_))`. -/
def gapsOr {T : Type} [LinearOrder T] (a b : List (Endpoint T)) :
    Except PyErr (List (Endpoint T)) :=
  gapsInitEp (merge a b or_)

/-- `Gaps.__and__`. -/
def gapsAnd {T : Type} [LinearOrder T] (a b : List (Endpoint T)) :
    Except PyErr (List (Endpoint T)) :=
  gapsInitEp (merge a b and_)

/-- `Gaps.__xor__`. -/
def gapsXor {T : Type} [LinearOrder T] (a b : List (Endpoint T)) :
    Except PyErr (List (Endpoint T)) :=
  gapsInitEp (merge a b xor_)

/-- `Gaps.__sub__`. -/
def gapsSub {T : Type} [LinearOrder T] (a b : List (Endpoint T)) :
    Except PyErr (List (Endpoint T)) :=
  gapsInitEp (merge a b sub)

/-- `bisect.bisect(endpoints, value, key=attrgetter("value"))`.  Models the
documented contract of the stdlib binary search on the (sorted-by-value) lists
`Gaps` applies it to: the insertion point `i` such that every endpoint in
`l[:i]` has value `≤ v` and every endpoint in `l[i:]` has value `> v`. -/
def bisect {T : Type} [LinearOrder T] (l : List (Endpoint T)) (v : T) : Nat :=
  (l.takeWhile fun e => !decide (v < e.value)).length

/-- `Gaps.__contains__` (gaps.py lines 289-300).  The `none` fallbacks of the
two lookups are unreachable (`0 < i ≤ l.length` for the first; the second is
Python's explicit `i < len` guard, returning `False` past the end). -/
def gapsContains {T : Type} [LinearOrder T] (l : List (Endpoint T)) (v : T) :
    Bool :=
  let i := bisect l v
  if i = 0 then false
  else
    match l.get? (i - 1) with
    | none => false
    | some e =>
      if e.value = v then e.is_closed
      else
        match l.get? i with
        | some f => f.is_right
        | none => false

/-- Specification-side validity of an endpoint sequence, §3 of the spec:
used to state which `Gaps` are "valid"/"canonical".  `altB expectLeft l`
checks the left/right alternation. -/
def altB {T : Type} : Bool → List (Endpoint T) → Bool
  | _, [] => true
  | expectLeft, e :: rest =>
    (if expectLeft then e.is_left else e.is_right) && altB (!expectLeft) rest

/-- Specification-side: an adjacent pair is ordered and minimally expressed —
strictly increasing values, or equal values with boundaries `"[]"` (singleton)
or `")("` (degenerate gap). -/
def adjOK {T : Type} [LinearOrder T] (a b : Endpoint T) : Bool :=
  decide (a.value < b.value) ||
    (decide (a.value = b.value) && comboOK a.boundary b.boundary)

/-- Specification-side: every adjacent pair satisfies `adjOK`. -/
def chainB {T : Type} [LinearOrder T] : List (Endpoint T) → Bool
  | a :: b :: rest => adjOK a b && chainB (b :: rest)
  | _ => true

/-- Specification-side validity of a `Gaps` endpoint sequence (§3 invariants):
even length, alternating left/right boundaries, adjacent pairs sorted and
minimally expressed. -/
def validB {T : Type} [LinearOrder T] (l : List (Endpoint T)) : Bool :=
  decide (l.length % 2 = 0) && altB true l && chainB l

/-- Specification-side (for the amended C5): every adjacent pair is
non-strictly sorted, with equality under the `Endpoint` order only for a
same-valued closed-closed singleton pair. -/
def sortedOk {T : Type} [LinearOrder T] : List (Endpoint T) → Bool
  | a :: b :: rest =>
    (epLT a b || (epEq a b && comboOK a.boundary b.boundary)) && sortedOk (b :: rest)
  | _ => true

/-- Specification-side (for the amended C3): some explicit endpoint sits at an
index of the wrong parity for its side. -/
def wrongSideB {T : Type} : Nat → List (T ⊕ Endpoint T) → Bool
  | _, [] => false
  | i, .inl _ :: rest => wrongSideB (i + 1) rest
  | i, .inr e :: rest =>
    (decide (i % 2 = 0) && e.is_right) || (decide (i % 2 = 1) && e.is_left) ||
      wrongSideB (i + 1) rest

/-- Promotion with the side checks stripped: what `Gaps.__init__` turns the
input into when no wrong-side error fires. -/
def promoteF {T : Type} : Nat → List (T ⊕ Endpoint T) → List (Endpoint T)
  | _, [] => []
  | i, .inl v :: rest =>
    ⟨v, if i % 2 = 0 then .closedL else .closedR⟩ :: promoteF (i + 1) rest
  | i, .inr e :: rest => e :: promoteF (i + 1) rest

/-- Specification-side (for the amended C3): the fix-up scan of
`Gaps.__init__` meets an adjacent pair with left `>` right (same deletion
policy as the scan, but recording only whether an unsorted pair is met). -/
def scanUnsorted {T : Type} [LinearOrder T] : List (Endpoint T) → Bool
  | a :: b :: rest =>
    if epGT a b then true
    else if a.value = b.value ∧ comboOK a.boundary b.boundary = false then
      scanUnsorted rest
    else scanUnsorted (b :: rest)
  | _ => false

/-! ## Value domain for the string format

`Gaps.from_string` produces values that are Python `int`s or the floats
`float("inf")`/`float("-inf")`.  We model that value domain as the integers
extended with two infinities.  (Finite non-integer floats also exist in
Python; floating point is outside the shallow embedding, so the development
covers the integer-with-infinities fragment.) -/

/-- Python `int` values together with `float("-inf")` and `float("inf")`. -/
inductive XInt where
  | ninf : XInt
  | fin : ℤ → XInt
  | pinf : XInt
deriving DecidableEq

/-- The comparison Python's `<`/`==` induce on `XInt`:
`-inf < every int < inf`. -/
def XInt.leB : XInt → XInt → Bool
  | .ninf, _ => true
  | _, .pinf => true
  | .fin a, .fin b => decide (a ≤ b)
  | _, _ => false

instance : LinearOrder XInt where
  le a b := a.leB b = true
  lt a b := a.leB b = true ∧ ¬(b.leB a = true)
  le_refl a := by cases a <;> simp [XInt.leB]
  le_trans a b c := by cases a <;> cases b <;> cases c <;> simp [XInt.leB] <;> omega
  le_antisymm a b := by cases a <;> cases b <;> simp [XInt.leB] <;> omega
  le_total a b := by cases a <;> cases b <;> simp [XInt.leB] <;> omega
  lt_iff_le_not_le a b := Iff.rfl
  decidableLE a b := inferInstanceAs (Decidable (XInt.leB a b = true))
  decidableEq := inferInstance

/-- Python `str` of a non-negative `int`: decimal digits, most significant
first; `"0"` for zero. -/
def renderNat (m : Nat) : List Char :=
  if m = 0 then ['0'] else (Nat.digits 10 m).reverse.map Nat.digitChar

/-- Python `str` of an `int`. -/
def renderInt (n : ℤ) : List Char :=
  if n < 0 then '-' :: renderNat n.natAbs else renderNat n.toNat

/-- Python `str` of an `XInt` value (`str(float("inf")) == "inf"`,
`str(float("-inf")) == "-inf"`). -/
def renderValue : XInt → List Char
  | .ninf => ['-', 'i', 'n', 'f']
  | .fin n => renderInt n
  | .pinf => ['i', 'n', 'f']

/-- The boundary's bracket character. -/
def boundaryChar : Boundary → Char
  | .openL => '('
  | .openR => ')'
  | .closedL => '['
  | .closedR => ']'

/-- `Endpoint.__str__`: boundary before the value for a left endpoint, after
it for a right endpoint. -/
def renderEndpoint (e : Endpoint XInt) : List Char :=
  if e.is_left then boundaryChar e.boundary :: renderValue e.value
  else renderValue e.value ++ [boundaryChar e.boundary]

/-- The token list built by the pair loop of `Gaps.__str__` (gaps.py lines
304-310): a closed pair of equal endpoints renders as the singleton `"[v]"`,
any other pair as two endpoint tokens; `zip(it, it)` drops an odd leftover. -/
def renderPairs : List (Endpoint XInt) → List (List Char)
  | a :: b :: rest =>
    if epEq a b then ('[' :: (renderValue a.value ++ [']'])) :: renderPairs rest
    else renderEndpoint a :: renderEndpoint b :: renderPairs rest
  | _ => []

/-- Python `sep.join(tokens)`. -/
def joinSep (sep : List Char) : List (List Char) → List Char
  | [] => []
  | [t] => t
  | t :: ts => t ++ sep ++ joinSep sep ts

/-- `Gaps.__str__`: `f"{{{', '.join(endpoints)}}}"`, i.e. the comma-space
joined tokens wrapped in curly braces. -/
def toStringG (l : List (Endpoint XInt)) : List Char :=
  '{' :: (joinSep [',', ' '] (renderPairs l) ++ ['}'])

/-- Python `int(text)` on the forms `str` emits: an optional minus sign
followed by decimal digits.  (`int()` also tolerates surrounding whitespace,
a plus sign and underscores; none of those occur in rendered output and all
failures are `ValueError`s either way.) -/
def parseNat (cs : List Char) : Option Nat :=
  if cs = [] then none
  else if cs.all Char.isDigit then
    some (cs.foldl (fun a c => 10 * a + (c.toNat - 48)) 0)
  else none

/-- Signed decimal integer parsing for `int(text)`. -/
def parseInt (cs : List Char) : Option ℤ :=
  if cs.head? = some '-' then (parseNat (cs.drop 1)).map fun m : Nat => -(m : ℤ)
  else (parseNat cs).map fun m : Nat => (m : ℤ)

/-- `_to_number`: try `int(text)`, fall back to `float(text)`.  The float
fallback is modelled on the values of the `XInt` domain: `"inf"`/`"-inf"`.
Python's `float()` also accepts finite decimal/exponent forms, which produce
finite non-integer floats outside this value model; here, as for any other
unrecognized text, the result is the `ValueError` that `float()` raises
(`badNumber`). -/
def toNumber (cs : List Char) : Except PyErr XInt :=
  match parseInt cs with
  | some n => .ok (.fin n)
  | none =>
    if cs = ['i', 'n', 'f'] then .ok .pinf
    else if cs = ['-', 'i', 'n', 'f'] then .ok .ninf
    else .error .badNumber

/-- Python `text.split(",")` (so `"".split(",") == [""]`). -/
def splitOnComma : List Char → List (List Char)
  | [] => [[]]
  | c :: rest =>
    if c = ',' then [] :: splitOnComma rest
    else
      match splitOnComma rest with
      | t :: ts => (c :: t) :: ts
      | [] => [[c]]

/-- The token branch of `Gaps.from_string` (gaps.py lines 247-258): a
`[v]` singleton token, a leading-bracket left endpoint, a trailing-bracket
right endpoint, or the "Invalid endpoint" `ValueError`. -/
def parseToken (t : List Char) : Except PyErr (List (Endpoint XInt)) :=
  if t.head? = some '[' ∧ t.getLast? = some ']' then do
    let v ← toNumber ((t.drop 1).dropLast)
    .ok [⟨v, .closedL⟩, ⟨v, .closedR⟩]
  else if t.head? = some '(' ∨ t.head? = some '[' then do
    let v ← toNumber (t.drop 1)
    .ok [⟨v, if t.head? = some '(' then .openL else .closedL⟩]
  else if t.getLast? = some ')' ∨ t.getLast? = some ']' then do
    let v ← toNumber t.dropLast
    .ok [⟨v, if t.getLast? = some ')' then .openR else .closedR⟩]
  else .error .invalidEndpoint

/-- The token loop of `Gaps.from_string`, accumulating endpoints and
propagating the first error. -/
def parseTokens : List (List Char) → Except PyErr (List (Endpoint XInt))
  | [] => .ok []
  | t :: ts => do
    let es ← parseToken t
    let rest ← parseTokens ts
    .ok (es ++ rest)

/-- `Gaps.from_string` (gaps.py lines 228-260).  `gaps[0]` on the empty
string raises `IndexError` before the brace check can raise its
`ValueError`; otherwise the braces are checked, spaces removed, the inside
split on commas, the empty inside mapped to the empty `Gaps`, and the parsed
endpoints passed through `Gaps.__init__`. -/
def fromString (g : List Char) : Except PyErr (List (Endpoint XInt)) :=
  match g with
  | [] => .error .indexError
  | c :: rest =>
    if c = '{' ∧ (c :: rest).getLast? = some '}' then
      let cleaned := rest.dropLast.filter fun ch => ch ≠ ' '
      let splits := splitOnComma cleaned
      if splits = [[]] then .ok []
      else
        match parseTokens splits with
        | .error e => .error e
        | .ok eps => gapsInitEp eps
    else .error .badBraces

/-- Specification-side: the characters a rendered `XInt` value can contain —
decimal digits, a minus sign, and the letters of `inf`.  None of them is a
space, a comma, a curly brace or a bracket, which is what the round-trip
argument needs. -/
def safeChar (c : Char) : Bool :=
  c.isDigit || c = '-' || c = 'i' || c = 'n' || c = 'f'

/-! ## Theorems -/

/-- Reduction of an `Except` do-bind on a success. -/
@[simp] theorem except_bind_ok {E A B : Type} (a : A) (f : A → Except E B) :
    (do let x ← (Except.ok a : Except E A); f x) = f a := rfl

/-- Reduction of an `Except` do-bind on an error. -/
@[simp] theorem except_bind_error {E A B : Type} (e : E) (f : A → Except E B) :
    (do let x ← (Except.error e : Except E A); f x) = (.error e : Except E B) := rfl


/-- `Nat.digitChar` of a decimal digit, converted back to a digit. -/
theorem digitChar_toNat {d : Nat} (h : d < 10) :
    (Nat.digitChar d).toNat - 48 = d := by
  interval_cases d <;> rfl

/-- `Nat.digitChar` of a decimal digit is a digit character. -/
theorem digitChar_isDigit {d : Nat} (h : d < 10) :
    (Nat.digitChar d).isDigit = true := by
  interval_cases d <;> rfl

/-- Folding the digit accumulator over a digit list is `Nat.ofDigits`. -/
theorem foldr_eq_ofDigits : ∀ L : List Nat,
    L.foldr (fun d acc => 10 * acc + d) 0 = Nat.ofDigits 10 L := by
  intro L
  induction L with
  | nil => rfl
  | cons d L ih =>
    simp only [List.foldr_cons, ih, Nat.ofDigits_cons]
    omega

/-- Every character of a rendered natural number is a decimal digit. -/
theorem renderNat_all_digits (m : Nat) : ∀ c ∈ renderNat m, c.isDigit = true := by
  intro c hc
  by_cases h0 : m = 0
  · subst h0
    simp [renderNat] at hc
    subst hc
    rfl
  · unfold renderNat at hc
    rw [if_neg h0, List.map_reverse, List.mem_reverse, List.mem_map] at hc
    obtain ⟨d, hd, rfl⟩ := hc
    exact digitChar_isDigit (Nat.digits_lt_base (by omega) hd)

/-- The rendered digits of a natural number form a non-empty string. -/
theorem renderNat_ne_nil (m : Nat) : renderNat m ≠ [] := by
  by_cases h0 : m = 0
  · subst h0
    simp [renderNat]
  · unfold renderNat
    rw [if_neg h0]
    simp [Nat.digits_ne_nil_iff_ne_zero.mpr h0]

/-- Parsing back the rendered decimal digits of `m` gives `m`. -/
theorem parseNat_renderNat (m : Nat) : parseNat (renderNat m) = some m := by
  by_cases h0 : m = 0
  · subst h0
    rfl
  · have hall : (renderNat m).all Char.isDigit = true := by
      rw [List.all_eq_true]
      exact fun c hc => renderNat_all_digits m c hc
    unfold parseNat
    rw [if_neg (renderNat_ne_nil m), if_pos hall]
    congr 1
    have hlt : ∀ d ∈ Nat.digits 10 m, d < 10 := fun d hd =>
      Nat.digits_lt_base (by omega) hd
    unfold renderNat
    rw [if_neg h0]
    rw [List.map_reverse, List.foldl_reverse, List.foldr_map]
    have hfold : ((Nat.digits 10 m).foldr
        (fun d acc => 10 * acc + ((Nat.digitChar d).toNat - 48)) 0) =
        ((Nat.digits 10 m).foldr (fun d acc => 10 * acc + d) 0) := by
      generalize hL : Nat.digits 10 m = L at hlt
      clear hL h0 hall
      induction L with
      | nil => rfl
      | cons d L ih =>
        simp only [List.foldr_cons]
        rw [digitChar_toNat (hlt d (by simp)), ih (fun d hd => hlt d (by simp [hd]))]
    have hshape : ((Nat.digits 10 m).foldr
        (fun x y => 10 * y + (x.digitChar.toNat - 48)) 0) =
        ((Nat.digits 10 m).foldr
          (fun d acc => 10 * acc + ((Nat.digitChar d).toNat - 48)) 0) := rfl
    rw [hshape, hfold, foldr_eq_ofDigits, Nat.ofDigits_digits]

/-- The rendered digits of `m` never start with a minus sign. -/
theorem renderNat_head_ne_minus (m : Nat) : (renderNat m).head? ≠ some '-' := by
  intro hc
  cases hr : renderNat m with
  | nil =>
    rw [hr] at hc
    exact Option.noConfusion hc
  | cons x xs =>
    rw [hr] at hc
    simp only [List.head?_cons, Option.some.injEq] at hc
    have hd : x.isDigit = true := renderNat_all_digits m x (by rw [hr]; simp)
    rw [hc] at hd
    exact absurd hd (by decide)

/-- Parsing back the rendered decimal form of an integer gives it back. -/
theorem parseInt_renderInt (n : ℤ) : parseInt (renderInt n) = some n := by
  unfold renderInt parseInt
  by_cases hneg : n < 0
  · rw [if_pos hneg]
    simp only [List.head?_cons, if_pos rfl, if_true, List.drop_succ_cons, List.drop_zero]
    rw [parseNat_renderNat, Option.map_some']
    congr 1
    show -(n.natAbs : ℤ) = n
    omega
  · rw [if_neg hneg, if_neg (renderNat_head_ne_minus n.toNat)]
    rw [parseNat_renderNat, Option.map_some']
    congr 1
    show (n.toNat : ℤ) = n
    omega

/-- A list's last element, when present, is a member. -/
theorem mem_of_getLast?_eq {A : Type} : ∀ (l : List A) (a : A),
    l.getLast? = some a → a ∈ l := by
  intro l
  induction l with
  | nil =>
    intro a h
    exact Option.noConfusion h
  | cons x xs ih =>
    intro a h
    cases xs with
    | nil =>
      simp only [List.getLast?_singleton, Option.some.injEq] at h
      simp [h]
    | cons y ys =>
      rw [List.getLast?_cons_cons] at h
      exact List.mem_cons_of_mem x (ih a h)

/-- Every character of a rendered value is safe (digit, minus, or `inf`
letter), and the rendering is non-empty. -/
theorem renderValue_safe (v : XInt) :
    (∀ c ∈ renderValue v, safeChar c = true) ∧ renderValue v ≠ [] := by
  cases v with
  | ninf =>
    constructor
    · intro c hc
      fin_cases hc <;> rfl
    · simp [renderValue]
  | pinf =>
    constructor
    · intro c hc
      fin_cases hc <;> rfl
    · simp [renderValue]
  | fin n =>
    constructor
    · intro c hc
      have hc2 : c ∈ renderInt n := hc
      unfold renderInt at hc2
      split_ifs at hc2
      · rcases List.mem_cons.mp hc2 with rfl | hc3
        · rfl
        · have hd := renderNat_all_digits _ c hc3
          simp [safeChar, hd]
      · have hd := renderNat_all_digits _ c hc2
        simp [safeChar, hd]
    · show renderInt n ≠ []
      unfold renderInt
      split_ifs
      · simp
      · exact renderNat_ne_nil _

/-- A safe character is none of the structural characters of the interval
notation. -/
theorem safeChar_not_special {c : Char} (h : safeChar c = true) :
    c ≠ ',' ∧ c ≠ ' ' ∧ c ≠ '[' ∧ c ≠ ']' ∧ c ≠ '(' ∧ c ≠ ')' := by
  refine ⟨?_, ?_, ?_, ?_, ?_, ?_⟩ <;> rintro rfl <;> revert h <;> decide

/-- The head character of a rendered value is safe. -/
theorem renderValue_head_safe (v : XInt) (c : Char)
    (h : (renderValue v).head? = some c) : safeChar c = true :=
  (renderValue_safe v).1 c (List.mem_of_mem_head? (by simp [h]))

/-- The last character of a rendered value is safe. -/
theorem renderValue_getLast_safe (v : XInt) (c : Char)
    (h : (renderValue v).getLast? = some c) : safeChar c = true :=
  (renderValue_safe v).1 c (mem_of_getLast?_eq _ c h)

/-- `_to_number` parses a rendered value back to that value. -/
theorem toNumber_renderValue (v : XInt) : toNumber (renderValue v) = .ok v := by
  cases v with
  | fin n =>
    have h := parseInt_renderInt n
    unfold toNumber renderValue
    rw [h]
  | ninf => rfl
  | pinf => rfl

/-- Parsing a rendered singleton token `"[v]"` gives the closed pair at `v`. -/
theorem parseToken_singleton (v : XInt) :
    parseToken ('[' :: (renderValue v ++ [']'])) =
      .ok [⟨v, .closedL⟩, ⟨v, .closedR⟩] := by
  unfold parseToken
  rw [if_pos ⟨rfl, by rw [← List.cons_append, List.getLast?_concat]⟩]
  simp only [List.drop_succ_cons, List.drop_zero, List.dropLast_concat]
  rw [toNumber_renderValue]
  rfl

/-- Parsing the rendered token of a left endpoint gives it back. -/
theorem parseToken_left (v : XInt) (bd : Boundary)
    (h : (Endpoint.mk v bd).is_left = true) :
    parseToken (renderEndpoint ⟨v, bd⟩) = .ok [⟨v, bd⟩] := by
  have hrv := renderValue_safe v
  obtain ⟨x, xs, hx⟩ := List.exists_cons_of_ne_nil hrv.2
  unfold renderEndpoint
  rw [if_pos h]
  cases bd with
  | openR => exact absurd h (by simp [Endpoint.is_left])
  | closedR => exact absurd h (by simp [Endpoint.is_left])
  | openL =>
    show parseToken ('(' :: renderValue v) = .ok [⟨v, .openL⟩]
    unfold parseToken
    simp only [List.head?_cons, List.drop_succ_cons, List.drop_zero]
    rw [if_neg ?_, if_pos (Or.inl trivial)]
    · rw [toNumber_renderValue]
      rfl
    · rintro ⟨h1, _⟩
      simp only [Option.some.injEq] at h1
      exact absurd h1 (by decide)
  | closedL =>
    show parseToken ('[' :: renderValue v) = .ok [⟨v, .closedL⟩]
    unfold parseToken
    simp only [List.head?_cons, List.drop_succ_cons, List.drop_zero]
    rw [if_neg ?_, if_pos (Or.inr trivial)]
    · rw [toNumber_renderValue]
      rfl
    · rintro ⟨_, h2⟩
      rw [hx, List.getLast?_cons_cons] at h2
      have hsafe := renderValue_getLast_safe v ']' (by rw [hx]; exact h2)
      exact absurd rfl (safeChar_not_special hsafe).2.2.2.1

/-- Parsing the rendered token of a right endpoint gives it back. -/
theorem parseToken_right (v : XInt) (bd : Boundary)
    (h : (Endpoint.mk v bd).is_right = true) :
    parseToken (renderEndpoint ⟨v, bd⟩) = .ok [⟨v, bd⟩] := by
  have hrv := renderValue_safe v
  obtain ⟨x, xs, hx⟩ := List.exists_cons_of_ne_nil hrv.2
  have hxsafe : safeChar x = true := hrv.1 x (by rw [hx]; simp)
  have hleft : (Endpoint.mk v bd).is_left = false := by
    cases bd <;> first | rfl | exact absurd h (by simp [Endpoint.is_right])
  unfold renderEndpoint
  rw [if_neg (by rw [hleft]; exact Bool.false_ne_true)]
  have hhead : ∀ c : Char, (renderValue v ++ [c]).head? = some x := by
    intro c
    rw [hx]
    rfl
  have hnothead : ∀ b : Char, safeChar b = false → ∀ c : Char,
      ¬(renderValue v ++ [c]).head? = some b := by
    intro b hb c hcon
    rw [hhead c] at hcon
    simp only [Option.some.injEq] at hcon
    rw [hcon] at hxsafe
    rw [hxsafe] at hb
    exact Bool.noConfusion hb
  cases bd with
  | openL => exact absurd h (by simp [Endpoint.is_right])
  | closedL => exact absurd h (by simp [Endpoint.is_right])
  | openR =>
    show parseToken (renderValue v ++ [')']) = .ok [⟨v, .openR⟩]
    have h1 := hnothead '[' (by decide) ')'
    have h2 := hnothead '(' (by decide) ')'
    unfold parseToken
    rw [if_neg (fun hc => h1 hc.1), if_neg (fun hc => hc.elim h2 h1),
      if_pos (Or.inl (List.getLast?_concat _)),
      List.dropLast_concat, toNumber_renderValue, List.getLast?_concat]
    rfl
  | closedR =>
    show parseToken (renderValue v ++ [']']) = .ok [⟨v, .closedR⟩]
    have h1 := hnothead '[' (by decide) ']'
    have h2 := hnothead '(' (by decide) ']'
    unfold parseToken
    rw [if_neg (fun hc => h1 hc.1), if_neg (fun hc => hc.elim h2 h1),
      if_pos (Or.inr (List.getLast?_concat _)),
      List.dropLast_concat, toNumber_renderValue, List.getLast?_concat]
    rfl

/-- Splitting a comma-free string yields just that string. -/
theorem splitOnComma_no_comma : ∀ t : List Char, (∀ c ∈ t, c ≠ ',') →
    splitOnComma t = [t] := by
  intro t
  induction t with
  | nil => intro _; rfl
  | cons c rest ih =>
    intro hc
    simp only [splitOnComma]
    rw [if_neg (hc c (by simp)), ih (fun d hd => hc d (by simp [hd]))]

/-- Splitting peels a comma-free prefix before a comma. -/
theorem splitOnComma_append : ∀ (t r : List Char), (∀ c ∈ t, c ≠ ',') →
    splitOnComma (t ++ ',' :: r) = t :: splitOnComma r := by
  intro t
  induction t with
  | nil =>
    intro r _
    simp only [List.nil_append, splitOnComma, if_pos rfl, if_true]
  | cons c t ih =>
    intro r hc
    simp only [List.cons_append, splitOnComma, List.append_eq]
    rw [if_neg (hc c (by simp)), ih r (fun d hd => hc d (by simp [hd]))]

/-- Splitting the comma-join of comma-free, non-empty-list tokens recovers
the tokens. -/
theorem splitOnComma_joinSep : ∀ ts : List (List Char), ts ≠ [] →
    (∀ t ∈ ts, ∀ c ∈ t, c ≠ ',') →
    splitOnComma (joinSep [','] ts) = ts := by
  intro ts
  induction ts with
  | nil => intro h; exact absurd rfl h
  | cons t ts ih =>
    intro _ hcs
    cases ts with
    | nil => exact splitOnComma_no_comma t (hcs t (by simp))
    | cons t2 ts2 =>
      rw [show joinSep [','] (t :: t2 :: ts2) =
        t ++ [','] ++ joinSep [','] (t2 :: ts2) from rfl]
      rw [List.append_assoc, List.singleton_append]
      rw [splitOnComma_append t _ (hcs t (by simp))]
      rw [ih (by simp) (fun u hu => hcs u (by simp [hu]))]

/-- Removing spaces from a comma-space join of space-free tokens gives the
comma join. -/
theorem filter_joinSep : ∀ ts : List (List Char),
    (∀ t ∈ ts, ∀ c ∈ t, c ≠ ' ') →
    (joinSep [',', ' '] ts).filter (fun ch => ch ≠ ' ') = joinSep [','] ts := by
  intro ts
  induction ts with
  | nil => intro _; rfl
  | cons t ts ih =>
    intro hcs
    have hft : t.filter (fun ch => ch ≠ ' ') = t :=
      List.filter_eq_self.mpr (fun a ha => by
        simpa using hcs t (by simp) a ha)
    cases ts with
    | nil => exact hft
    | cons t2 ts2 =>
      rw [show joinSep [',', ' '] (t :: t2 :: ts2) =
        t ++ [',', ' '] ++ joinSep [',', ' '] (t2 :: ts2) from rfl]
      rw [show joinSep [','] (t :: t2 :: ts2) =
        t ++ [','] ++ joinSep [','] (t2 :: ts2) from rfl]
      rw [List.filter_append, List.filter_append, hft,
        show ([',', ' '] : List Char).filter (fun ch => ch ≠ ' ') = [','] from rfl,
        ih (fun u hu => hcs u (by simp [hu]))]

/-- The bracket characters are neither commas nor spaces. -/
theorem boundaryChar_not_special (bd : Boundary) :
    boundaryChar bd ≠ ',' ∧ boundaryChar bd ≠ ' ' := by
  cases bd <;> exact ⟨by decide, by decide⟩

/-- Characters of a rendered endpoint token are neither commas nor spaces. -/
theorem renderEndpoint_chars (e : Endpoint XInt) :
    ∀ c ∈ renderEndpoint e, c ≠ ',' ∧ c ≠ ' ' := by
  intro c hc
  unfold renderEndpoint at hc
  split_ifs at hc
  · rcases List.mem_cons.mp hc with rfl | hc2
    · exact boundaryChar_not_special e.boundary
    · have hs := (renderValue_safe e.value).1 c hc2
      exact ⟨(safeChar_not_special hs).1, (safeChar_not_special hs).2.1⟩
  · rcases List.mem_append.mp hc with hc2 | hc2
    · have hs := (renderValue_safe e.value).1 c hc2
      exact ⟨(safeChar_not_special hs).1, (safeChar_not_special hs).2.1⟩
    · rcases List.mem_singleton.mp hc2 with rfl
      exact boundaryChar_not_special e.boundary

/-- A rendered endpoint token is non-empty. -/
theorem renderEndpoint_ne_nil (e : Endpoint XInt) : renderEndpoint e ≠ [] := by
  unfold renderEndpoint
  split_ifs
  · simp
  · simp

/-- Every token the pair renderer emits is non-empty and free of commas and
spaces. -/
theorem renderPairs_tokens : ∀ l : List (Endpoint XInt),
    ∀ t ∈ renderPairs l, t ≠ [] ∧ ∀ c ∈ t, c ≠ ',' ∧ c ≠ ' ' := by
  intro l
  induction l using renderPairs.induct with
  | case1 a b rest heq ih =>
    intro t ht
    simp only [renderPairs, if_pos heq, List.mem_cons] at ht
    rcases ht with rfl | ht2
    · refine ⟨by simp, ?_⟩
      intro c hc
      rcases List.mem_cons.mp hc with rfl | hc2
      · exact ⟨by decide, by decide⟩
      · rcases List.mem_append.mp hc2 with hc3 | hc3
        · have hs := (renderValue_safe a.value).1 c hc3
          exact ⟨(safeChar_not_special hs).1, (safeChar_not_special hs).2.1⟩
        · rcases List.mem_singleton.mp hc3 with rfl
          exact ⟨by decide, by decide⟩
    · exact ih t ht2
  | case2 a b rest heq ih =>
    intro t ht
    simp only [renderPairs, if_neg heq, List.mem_cons] at ht
    rcases ht with rfl | rfl | ht2
    · exact ⟨renderEndpoint_ne_nil a, renderEndpoint_chars a⟩
    · exact ⟨renderEndpoint_ne_nil b, renderEndpoint_chars b⟩
    · exact ih t ht2
  | case3 l hne =>
    intro t ht
    match l, hne with
    | [], _ => exact absurd ht (by simp [renderPairs])
    | [a], _ => exact absurd ht (by simp [renderPairs])
    | a :: b :: rest, hne => exact absurd rfl (hne a b rest)

/-- Any fuel at least `ra.length + rb.length` gives the same `mergeGo` result:
each iteration of the `_merge` loop consumes at least one endpoint. -/
theorem mergeGo_fuel {T : Type} [LinearOrder T] (op : Bool → Bool → Bool) :
    ∀ (f g : Nat) (ca cb : Option (Endpoint T)) (inside : Bool)
      (ra rb : List (Endpoint T)),
      ra.length + rb.length ≤ f → ra.length + rb.length ≤ g →
      mergeGo op f ca cb inside ra rb = mergeGo op g ca cb inside ra rb := by
  intro f
  induction f with
  | zero =>
    intro g ca cb inside ra rb hf _
    have hra : ra = [] := by cases ra <;> simp_all
    have hrb : rb = [] := by cases rb <;> simp_all
    subst hra; subst hrb
    cases g <;> rfl
  | succ f ih =>
    intro g ca cb inside ra rb hf hg
    match ra, rb with
    | [], [] => cases g <;> rfl
    | [], eb :: rbs =>
      obtain ⟨g2, rfl⟩ : ∃ g2, g = g2 + 1 := by
        cases g
        · simp at hg
        · exact ⟨_, rfl⟩
      simp only [mergeGo]
      congr 1
      apply ih <;> simp_all
    | ea :: ras, [] =>
      obtain ⟨g2, rfl⟩ : ∃ g2, g = g2 + 1 := by
        cases g
        · simp at hg
        · exact ⟨_, rfl⟩
      simp only [mergeGo]
      congr 1
      apply ih <;> simp_all
    | ea :: ras, eb :: rbs =>
      obtain ⟨g2, rfl⟩ : ∃ g2, g = g2 + 1 := by
        cases g
        · simp at hg
        · exact ⟨_, rfl⟩
      simp only [mergeGo]
      congr 1
      have hlen : (if ea.value = min ea.value eb.value then ras else ea :: ras).length +
          (if eb.value = min ea.value eb.value then rbs else eb :: rbs).length ≤
            ras.length + rbs.length + 1 := by
        by_cases h1 : ea.value = min ea.value eb.value <;>
          by_cases h2 : eb.value = min ea.value eb.value
        · simp only [if_pos h1, if_pos h2]; omega
        · simp only [if_pos h1, if_neg h2, List.length_cons]; omega
        · simp only [if_neg h1, if_pos h2, List.length_cons]; omega
        · rcases min_choice ea.value eb.value with h | h
          · exact absurd h.symm h1
          · exact absurd h.symm h2
      apply ih
      · refine le_trans hlen ?_
        simp only [List.length_cons] at hf
        omega
      · refine le_trans hlen ?_
        simp only [List.length_cons] at hg
        omega

/-- One step of `emit` is symmetric in the two sides when the combinator is
commutative. -/
theorem emit_comm {T : Type} [LinearOrder T] (op : Bool → Bool → Bool)
    (hop : ∀ x y, op x y = op y x) (ca cb : Option (Endpoint T))
    (inside : Bool) (s : T) : emit op ca cb inside s = emit op cb ca inside s := by
  simp only [emit]
  rw [hop (endpoint_contains ca s) (endpoint_contains cb s),
    hop (endpoint_contains_right ca s) (endpoint_contains_right cb s)]

/-- The `inside_region` update is symmetric for a commutative combinator. -/
theorem nextInside_comm {T : Type} [LinearOrder T] (op : Bool → Bool → Bool)
    (hop : ∀ x y, op x y = op y x) (ca cb : Option (Endpoint T)) (s : T) :
    nextInside op ca cb s = nextInside op cb ca s := by
  simp only [nextInside]
  rw [hop]

/-- The `_merge` sweep is symmetric in its two inputs for a commutative
combinator. -/
theorem mergeGo_comm {T : Type} [LinearOrder T] (op : Bool → Bool → Bool)
    (hop : ∀ x y, op x y = op y x) :
    ∀ (f : Nat) (ca cb : Option (Endpoint T)) (inside : Bool)
      (ra rb : List (Endpoint T)),
      mergeGo op f ca cb inside ra rb = mergeGo op f cb ca inside rb ra := by
  intro f
  induction f with
  | zero => intros; rfl
  | succ f ih =>
    intro ca cb inside ra rb
    match ra, rb with
    | [], [] => rfl
    | [], eb :: rbs =>
      simp only [mergeGo]
      rw [emit_comm op hop, nextInside_comm op hop, ih]
    | ea :: ras, [] =>
      simp only [mergeGo]
      rw [emit_comm op hop, nextInside_comm op hop, ih]
    | ea :: ras, eb :: rbs =>
      simp only [mergeGo]
      rw [min_comm eb.value ea.value, emit_comm op hop, nextInside_comm op hop, ih]

/-- `_merge` itself is symmetric for a commutative combinator. -/
theorem merge_comm {T : Type} [LinearOrder T] (op : Bool → Bool → Bool)
    (hop : ∀ x y, op x y = op y x) (a b : List (Endpoint T)) :
    merge a b op = merge b a op := by
  unfold merge
  rw [Nat.add_comm b.length a.length]
  exact mergeGo_comm op hop _ none none false a b

/-- The fix-up loop never lengthens the list. -/
theorem fixLoop_length {T : Type} [LinearOrder T] (l : List (Endpoint T)) :
    ∀ m, fixLoop l = .ok m → m.length ≤ l.length := by
  induction l using fixLoop.induct with
  | case1 a b rest hgt =>
    intro m h
    simp [fixLoop, hgt] at h
  | case2 a b rest hgt hdel ih =>
    intro m h
    simp only [fixLoop, if_neg hgt, if_pos hdel] at h
    have := ih m h
    simp only [List.length_cons]
    omega
  | case3 a b rest hgt hdel ih =>
    intro m h
    simp only [fixLoop, if_neg hgt, if_neg hdel] at h
    cases hx : fixLoop (b :: rest) with
    | error e =>
      rw [hx] at h
      simp at h
    | ok tail =>
      rw [hx] at h
      simp only [except_bind_ok, Except.ok.injEq] at h
      have := ih tail hx
      rw [← h]
      simp only [List.length_cons] at this ⊢
      omega
  | case4 l hne =>
    intro m h
    match l, hne with
    | [], _ =>
      have h2 : (Except.ok ([] : List (Endpoint T)) : Except PyErr (List (Endpoint T))) = .ok m := h
      simp only [Except.ok.injEq] at h2
      simp [← h2]
    | [a], _ =>
      have h2 : (Except.ok [a] : Except PyErr (List (Endpoint T))) = .ok m := h
      simp only [Except.ok.injEq] at h2
      simp [← h2]
    | a :: b :: rest, hne => exact absurd rfl (hne a b rest)

/-- If the fix-up loop returns its input unchanged, the input satisfies the
amended sortedness property: adjacent endpoints are `<` or an equal
closed-closed singleton pair. -/
theorem fixLoop_ok_self_sortedOk {T : Type} [LinearOrder T]
    (l : List (Endpoint T)) : fixLoop l = .ok l → sortedOk l = true := by
  induction l using fixLoop.induct with
  | case1 a b rest hgt =>
    intro h
    simp [fixLoop, hgt] at h
  | case2 a b rest hgt hdel ih =>
    intro h
    simp only [fixLoop, if_neg hgt, if_pos hdel] at h
    have := fixLoop_length rest _ h
    simp only [List.length_cons] at this
    omega
  | case3 a b rest hgt hdel ih =>
    intro h
    simp only [fixLoop, if_neg hgt, if_neg hdel] at h
    cases hx : fixLoop (b :: rest) with
    | error e =>
      rw [hx] at h
      simp at h
    | ok tail =>
      rw [hx] at h
      simp only [except_bind_ok, Except.ok.injEq, List.cons.injEq, true_and] at h
      subst h
      have hs := ih hx
      have hle : epLT a b = true ∨ epEq a b = true := by
        have hgt2 : epGT a b = false := by
          revert hgt
          cases epGT a b <;> simp
        unfold epGT at hgt2
        cases h1 : epLT a b
        · cases h2 : epEq a b
          · rw [h1, h2] at hgt2
            simp at hgt2
          · exact Or.inr rfl
        · exact Or.inl rfl
      rcases hle with hlt | heq
      · simp [sortedOk, hlt, hs]
      · have hv : a.value = b.value := by
          have h3 := heq
          unfold epEq at h3
          simp at h3
          exact h3.1
        have hcombo : comboOK a.boundary b.boundary = true := by
          by_contra hc
          exact hdel ⟨hv, by revert hc; cases comboOK a.boundary b.boundary <;> simp⟩
        simp [sortedOk, heq, hcombo, hs]
  | case4 l hne =>
    intro _
    match l, hne with
    | [], _ => rfl
    | [a], _ => rfl
    | a :: b :: rest, hne => exact absurd rfl (hne a b rest)

/-- Promotion of a list that is already all endpoints returns it unchanged
when it succeeds. -/
theorem promote_map_inr_ok {T : Type} [LinearOrder T] :
    ∀ (i : Nat) (l m : List (Endpoint T)),
      promote i (l.map Sum.inr) = .ok m → m = l := by
  intro i l
  induction l generalizing i with
  | nil =>
    intro m h
    simp [promote] at h
    exact h
  | cons e rest ih =>
    intro m h
    simp only [List.map_cons, promote] at h
    split at h
    · simp at h
    · split at h
      · simp at h
      · cases hx : promote (i + 1) (rest.map Sum.inr) with
        | error e2 =>
          rw [hx] at h
          simp at h
        | ok tail =>
          rw [hx] at h
          simp only [except_bind_ok, Except.ok.injEq] at h
          rw [← h, ih (i + 1) tail hx]

/-- Promotion succeeds exactly when no explicit endpoint is on the wrong
side for its index parity. -/
theorem promote_isOk {T : Type} [LinearOrder T] :
    ∀ (i : Nat) (l : List (T ⊕ Endpoint T)),
      isOkB (promote i l) = !wrongSideB i l := by
  intro i l
  induction l generalizing i with
  | nil => rfl
  | cons x rest ih =>
    match x with
    | .inl v =>
      have hrec := ih (i + 1)
      simp only [promote, wrongSideB]
      cases hx : promote (i + 1) rest with
      | error e2 =>
        rw [hx] at hrec
        simp only [hx, except_bind_error]
        exact hrec
      | ok tail =>
        rw [hx] at hrec
        simp only [hx, except_bind_ok]
        simp only [isOkB] at hrec ⊢
        exact hrec
    | .inr e =>
      by_cases h1 : (decide (i % 2 = 0) && e.is_right) = true
      · simp [promote, wrongSideB, h1, isOkB]
      · by_cases h2 : (decide (i % 2 = 1) && e.is_left) = true
        · simp [promote, wrongSideB, h1, h2, isOkB]
        · simp only [Bool.not_eq_true] at h1 h2
          have hrec := ih (i + 1)
          simp only [promote, wrongSideB, h1, h2, Bool.false_or]
          simp only [Bool.false_eq_true, if_false]
          cases hx : promote (i + 1) rest with
          | error e2 =>
            rw [hx] at hrec
            simp only [hx, except_bind_error]
            exact hrec
          | ok tail =>
            rw [hx] at hrec
            simp only [hx, except_bind_ok]
            simp only [isOkB] at hrec ⊢
            exact hrec

/-- When no endpoint is on the wrong side, promotion returns exactly the
parity-promoted list. -/
theorem promote_ok_eq {T : Type} [LinearOrder T] :
    ∀ (i : Nat) (l : List (T ⊕ Endpoint T)), wrongSideB i l = false →
      promote i l = .ok (promoteF i l) := by
  intro i l
  induction l generalizing i with
  | nil => intro _; rfl
  | cons x rest ih =>
    intro hw
    match x with
    | .inl v =>
      simp only [wrongSideB] at hw
      simp only [promote, promoteF, ih (i + 1) hw, except_bind_ok]
    | .inr e =>
      simp only [wrongSideB, Bool.or_eq_false_iff] at hw
      obtain ⟨⟨h1, h2⟩, h3⟩ := hw
      simp only [promote, promoteF, h1, h2, ih (i + 1) h3, except_bind_ok]
      simp only [Bool.false_eq_true, if_false]

/-- The only errors promotion raises are the two wrong-side `ValueError`s. -/
theorem promote_error_classify {T : Type} [LinearOrder T] :
    ∀ (i : Nat) (l : List (T ⊕ Endpoint T)) (e : PyErr),
      promote i l = .error e → e = .expectedLeft ∨ e = .expectedRight := by
  intro i l
  induction l generalizing i with
  | nil =>
    intro e h
    simp [promote] at h
  | cons x rest ih =>
    intro e h
    match x with
    | .inl v =>
      simp only [promote] at h
      cases hx : promote (i + 1) rest with
      | error e2 =>
        rw [hx] at h
        simp only [except_bind_error, Except.error.injEq] at h
        exact h ▸ ih (i + 1) e2 hx
      | ok tail =>
        rw [hx] at h
        simp only [except_bind_ok] at h
        exact Except.noConfusion h
    | .inr ep =>
      simp only [promote] at h
      split at h
      · simp only [Except.error.injEq] at h
        exact Or.inl h.symm
      · split at h
        · simp only [Except.error.injEq] at h
          exact Or.inr h.symm
        · cases hx : promote (i + 1) rest with
          | error e2 =>
            rw [hx] at h
            simp only [except_bind_error, Except.error.injEq] at h
            exact h ▸ ih (i + 1) e2 hx
          | ok tail =>
            rw [hx] at h
            simp only [except_bind_ok] at h
            exact Except.noConfusion h

/-- The fix-up loop succeeds exactly when its scan meets no unsorted pair. -/
theorem fixLoop_isOk {T : Type} [LinearOrder T] (l : List (Endpoint T)) :
    isOkB (fixLoop l) = !scanUnsorted l := by
  induction l using fixLoop.induct with
  | case1 a b rest hgt =>
    simp [fixLoop, scanUnsorted, hgt, isOkB]
  | case2 a b rest hgt hdel ih =>
    simpa [fixLoop, scanUnsorted, if_neg hgt, if_pos hdel] using ih
  | case3 a b rest hgt hdel ih =>
    simp only [fixLoop, scanUnsorted, if_neg hgt, if_neg hdel]
    cases hx : fixLoop (b :: rest) with
    | error e =>
      rw [hx] at ih
      simp only [hx, except_bind_error]
      exact ih
    | ok tail =>
      rw [hx] at ih
      simp only [hx, except_bind_ok]
      simp only [isOkB] at ih ⊢
      exact ih
  | case4 l hne =>
    match l, hne with
    | [], _ => rfl
    | [a], _ => rfl
    | a :: b :: rest, hne => exact absurd rfl (hne a b rest)

/-- The only error the fix-up loop raises is the unsorted `ValueError`. -/
theorem fixLoop_error_classify {T : Type} [LinearOrder T]
    (l : List (Endpoint T)) : ∀ e, fixLoop l = .error e → e = .unsorted := by
  induction l using fixLoop.induct with
  | case1 a b rest hgt =>
    intro e h
    simp only [fixLoop, if_pos hgt, Except.error.injEq] at h
    exact h.symm
  | case2 a b rest hgt hdel ih =>
    intro e h
    simp only [fixLoop, if_neg hgt, if_pos hdel] at h
    exact ih e h
  | case3 a b rest hgt hdel ih =>
    intro e h
    simp only [fixLoop, if_neg hgt, if_neg hdel] at h
    cases hx : fixLoop (b :: rest) with
    | error e2 =>
      rw [hx] at h
      simp only [except_bind_error, Except.error.injEq] at h
      exact h ▸ ih e2 hx
    | ok tail =>
      rw [hx] at h
      simp only [except_bind_ok] at h
      exact Except.noConfusion h
  | case4 l hne =>
    intro e h
    match l, hne with
    | [], _ =>
      have h2 : (Except.ok ([] : List (Endpoint T)) : Except PyErr (List (Endpoint T))) = .error e := h
      exact Except.noConfusion h2
    | [a], _ =>
      have h2 : (Except.ok [a] : Except PyErr (List (Endpoint T))) = .error e := h
      exact Except.noConfusion h2
    | a :: b :: rest, hne => exact absurd rfl (hne a b rest)

/-- C6: the `Endpoint` total order compares primarily by value; for equal
values it compares by the boundary rank `")" = 0 < "[" = "]" = 1 < "(" = 2`,
and two endpoints are equal iff they have equal value and equal boundary
rank — so `Endpoint(v, "[") == Endpoint(v, "]")` for every `v` even though
the boundary kinds differ. -/
theorem claim_C6_endpoint_order {T : Type} [LinearOrder T] :
    (boundaryOrder .openR = 0 ∧ boundaryOrder .closedL = 1 ∧
      boundaryOrder .closedR = 1 ∧ boundaryOrder .openL = 2) ∧
    (∀ a b : Endpoint T, epLT a b =
      (decide (a.value < b.value) || (decide (a.value = b.value) &&
        decide (boundaryOrder a.boundary < boundaryOrder b.boundary)))) ∧
    (∀ a b : Endpoint T, epEq a b = (decide (a.value = b.value) &&
      decide (boundaryOrder a.boundary = boundaryOrder b.boundary))) ∧
    (∀ v : T, epEq ⟨v, .closedL⟩ ⟨v, .closedR⟩ = true ∧
      (⟨v, .closedL⟩ : Endpoint T) ≠ ⟨v, .closedR⟩) := by
  refine ⟨⟨rfl, rfl, rfl, rfl⟩, ?_, fun a b => rfl, ?_⟩
  · intro a b
    by_cases h : a.value = b.value
    · simp [epLT, h]
    · simp [epLT, h]
  · intro v
    constructor
    · simp [epEq, boundaryOrder]
    · simp

/-- C8: subtracting an interior singleton splits the containing interval and
leaves a degenerate zero-width gap:
`Gaps([0,2]) - Gaps([1,1]) == Gaps([0, Endpoint(1,")"), Endpoint(1,"("), 2])`,
i.e. the set `[0,1) ∪ (1,2]`. -/
theorem claim_C8_subtract_interior_singleton :
    gapsInit ([.inl 0, .inl 2] : List (ℤ ⊕ Endpoint ℤ)) =
      .ok [⟨0, .closedL⟩, ⟨2, .closedR⟩] ∧
    gapsInit ([.inl 1, .inl 1] : List (ℤ ⊕ Endpoint ℤ)) =
      .ok [⟨1, .closedL⟩, ⟨1, .closedR⟩] ∧
    gapsSub ([⟨0, .closedL⟩, ⟨2, .closedR⟩] : List (Endpoint ℤ))
        [⟨1, .closedL⟩, ⟨1, .closedR⟩] =
      .ok [⟨0, .closedL⟩, ⟨1, .openR⟩, ⟨1, .openL⟩, ⟨2, .closedR⟩] ∧
    gapsSub ([⟨0, .closedL⟩, ⟨2, .closedR⟩] : List (Endpoint ℤ))
        [⟨1, .closedL⟩, ⟨1, .closedR⟩] =
      gapsInit [.inl 0, .inr ⟨1, .openR⟩, .inr ⟨1, .openL⟩, .inl 2] :=
  ⟨rfl, rfl, rfl, rfl⟩

/-- C1 (code bug): membership does not always distribute over the operators.
For the valid operands `A = Gaps([5,5])` (the singleton `{5}`) and
`B = Gaps([Endpoint(5,"("), 6])` (the interval `(5,6]`), `_merge` under `and`
emits the unsorted list `[(5,"("), (5,"]")]` (its second loop iteration
recomputes `at_scanline` at the stale scanline 5 after `B`'s cursor moved
past its open boundary), so `A & B` raises the "Endpoints unsorted"
`ValueError` instead of being the empty `Gaps`, and no membership
equivalence can hold for it. -/
theorem claim_C1_and_raises_on_valid_operands :
    validB ([⟨5, .closedL⟩, ⟨5, .closedR⟩] : List (Endpoint ℤ)) = true ∧
    validB ([⟨5, .openL⟩, ⟨6, .closedR⟩] : List (Endpoint ℤ)) = true ∧
    gapsContains ([⟨5, .closedL⟩, ⟨5, .closedR⟩] : List (Endpoint ℤ)) 5 = true ∧
    gapsContains ([⟨5, .openL⟩, ⟨6, .closedR⟩] : List (Endpoint ℤ)) 5 = false ∧
    merge ([⟨5, .closedL⟩, ⟨5, .closedR⟩] : List (Endpoint ℤ))
        [⟨5, .openL⟩, ⟨6, .closedR⟩] and_ = [⟨5, .openL⟩, ⟨5, .closedR⟩] ∧
    epGT (⟨5, .openL⟩ : Endpoint ℤ) ⟨5, .closedR⟩ = true ∧
    gapsAnd ([⟨5, .closedL⟩, ⟨5, .closedR⟩] : List (Endpoint ℤ))
        [⟨5, .openL⟩, ⟨6, .closedR⟩] = .error .unsorted :=
  ⟨rfl, rfl, rfl, rfl, rfl, rfl, rfl⟩

/-- C2 (code bug): the `_merge` output does not always satisfy the
construction invariants.  For the valid operands `A = Gaps([5,5])` and
`B = Gaps([Endpoint(5,"("), 6])`, `_merge` under `xor` returns the
non-minimal list `[(5,"["), (5,"]"), (5,"("), (6,"]")]`, and the `Gaps`
constructor removes its middle same-valued pair, returning `[(5,"["),
(6,"]")]` instead of the merge output unchanged.  (Under `and` the same
operands even make the constructor raise, see the C1 theorem's input.) -/
theorem claim_C2_merge_output_not_minimal :
    validB ([⟨5, .closedL⟩, ⟨5, .closedR⟩] : List (Endpoint ℤ)) = true ∧
    validB ([⟨5, .openL⟩, ⟨6, .closedR⟩] : List (Endpoint ℤ)) = true ∧
    merge ([⟨5, .closedL⟩, ⟨5, .closedR⟩] : List (Endpoint ℤ))
        [⟨5, .openL⟩, ⟨6, .closedR⟩] xor_ =
      [⟨5, .closedL⟩, ⟨5, .closedR⟩, ⟨5, .openL⟩, ⟨6, .closedR⟩] ∧
    validB ([⟨5, .closedL⟩, ⟨5, .closedR⟩, ⟨5, .openL⟩, ⟨6, .closedR⟩] :
      List (Endpoint ℤ)) = false ∧
    gapsXor ([⟨5, .closedL⟩, ⟨5, .closedR⟩] : List (Endpoint ℤ))
        [⟨5, .openL⟩, ⟨6, .closedR⟩] = .ok [⟨5, .closedL⟩, ⟨6, .closedR⟩] ∧
    ([⟨5, .closedL⟩, ⟨6, .closedR⟩] : List (Endpoint ℤ)) ≠
      [⟨5, .closedL⟩, ⟨5, .closedR⟩, ⟨5, .openL⟩, ⟨6, .closedR⟩] :=
  ⟨rfl, rfl, rfl, rfl, rfl, by simp⟩

/-- C3 (counterexample): construction does not fail on a non-minimal
expression.  `Gaps([0, 1, 1, 2])` promotes to the endpoint list
`[(0,"["), (1,"]"), (1,"["), (2,"]")]`, whose middle pair is same-valued
with the disallowed boundary combination `"]["`, yet construction succeeds,
silently deleting that pair. -/
theorem claim_C3_counterexample :
    promote 0 ([.inl 0, .inl 1, .inl 1, .inl 2] : List (ℤ ⊕ Endpoint ℤ)) =
      .ok [⟨0, .closedL⟩, ⟨1, .closedR⟩, ⟨1, .closedL⟩, ⟨2, .closedR⟩] ∧
    (⟨1, .closedR⟩ : Endpoint ℤ).value = (⟨1, .closedL⟩ : Endpoint ℤ).value ∧
    comboOK Boundary.closedR Boundary.closedL = false ∧
    gapsInit ([.inl 0, .inl 1, .inl 1, .inl 2] : List (ℤ ⊕ Endpoint ℤ)) =
      .ok [⟨0, .closedL⟩, ⟨2, .closedR⟩] :=
  ⟨rfl, rfl, rfl, rfl⟩

/-- C5 (counterexample): a successful construction whose fix-up loop deleted
a pair can leave consecutive endpoints that are not even non-strictly
sorted.  `Gaps([Endpoint(5,"["), Endpoint(5,"]"), Endpoint(5,"["),
Endpoint(3,"]")])` succeeds and returns `[(5,"["), (3,"]")]`, whose two
endpoints satisfy `e[0] > e[1]`, refuting `e[i] < e[i+1]`. -/
theorem claim_C5_counterexample :
    gapsInitEp ([⟨5, .closedL⟩, ⟨5, .closedR⟩, ⟨5, .closedL⟩, ⟨3, .closedR⟩] :
        List (Endpoint ℤ)) = .ok [⟨5, .closedL⟩, ⟨3, .closedR⟩] ∧
    epLT (⟨5, .closedL⟩ : Endpoint ℤ) ⟨3, .closedR⟩ = false ∧
    epGT (⟨5, .closedL⟩ : Endpoint ℤ) ⟨3, .closedR⟩ = true :=
  ⟨rfl, rfl, rfl⟩

/-- Every error `Gaps.__init__` raises names one of the three checked
invariants: odd count, wrong-side boundary, or unsorted. -/
theorem gapsInit_error_classify {T : Type} [LinearOrder T]
    (l : List (T ⊕ Endpoint T)) (e : PyErr) : gapsInit l = .error e →
    e = .oddCount ∨ e = .expectedLeft ∨ e = .expectedRight ∨ e = .unsorted := by
  intro h
  unfold gapsInit at h
  split at h
  · simp only [Except.error.injEq] at h
    exact Or.inl h.symm
  · cases hx : promote 0 l with
    | error e2 =>
      rw [hx] at h
      simp only [except_bind_error, Except.error.injEq] at h
      rcases promote_error_classify 0 l e2 hx with h2 | h2
      · exact Or.inr (Or.inl (h ▸ h2))
      · exact Or.inr (Or.inr (Or.inl (h ▸ h2)))
    | ok es =>
      rw [hx] at h
      simp only [except_bind_ok] at h
      exact Or.inr (Or.inr (Or.inr (fixLoop_error_classify es e h)))

/-- C3 (amended): construction fails exactly when the endpoint count is odd,
an explicit endpoint has the wrong-side boundary for its index parity, or
the fix-up scan meets an adjacent pair with left `>` right; and every
construction error names one of those three invariants (odd count, wrong
boundary at position, unsorted).  A non-minimal same-valued adjacent pair is
not an error: it is silently deleted. -/
theorem claim_C3_amended {T : Type} [LinearOrder T] (l : List (T ⊕ Endpoint T)) :
    (isOkB (gapsInit l) = false ↔
      (l.length % 2 = 1 ∨ wrongSideB 0 l = true ∨
        scanUnsorted (promoteF 0 l) = true)) ∧
    (∀ e, gapsInit l = .error e →
      e = .oddCount ∨ e = .expectedLeft ∨ e = .expectedRight ∨ e = .unsorted) := by
  constructor
  · by_cases hodd : l.length % 2 = 1
    · simp [gapsInit, hodd, isOkB]
    · by_cases hw : wrongSideB 0 l = true
      · have hp := promote_isOk 0 l
        rw [hw] at hp
        simp only [Bool.not_true] at hp
        cases hx : promote 0 l with
        | error e =>
          simp [gapsInit, hodd, hx, isOkB, hw]
        | ok es =>
          rw [hx] at hp
          simp [isOkB] at hp
      · have hw2 : wrongSideB 0 l = false := by
          revert hw
          cases wrongSideB 0 l <;> simp
        have hp := promote_ok_eq 0 l hw2
        have hfix := fixLoop_isOk (promoteF 0 l)
        simp only [gapsInit, if_neg hodd, hp, except_bind_ok, hodd, hw2,
          false_or, Bool.false_eq_true, if_false]
        rw [hfix]
        cases scanUnsorted (promoteF 0 l) <;> simp
  · exact gapsInit_error_classify l

/-- Witness for the amended C3 at the spec's own example `Gaps([1, 0])`:
construction fails (its scan meets `1 > 0`), and the `unsorted` error is one
of the named invariant errors. -/
theorem claim_C3_amended_witness :
    isOkB (gapsInit ([.inl 1, .inl 0] : List (ℤ ⊕ Endpoint ℤ))) = false ∧
    (PyErr.unsorted = .oddCount ∨ PyErr.unsorted = .expectedLeft ∨
      PyErr.unsorted = .expectedRight ∨ PyErr.unsorted = .unsorted) :=
  ⟨(claim_C3_amended ([.inl 1, .inl 0] : List (ℤ ⊕ Endpoint ℤ))).1.mpr
      (Or.inr (Or.inr rfl)),
   (claim_C3_amended ([.inl 1, .inl 0] : List (ℤ ⊕ Endpoint ℤ))).2 .unsorted rfl⟩

/-- C5 (amended): when construction succeeds returning its input unchanged
(no fix-up deletion), the endpoint sequence is non-strictly sorted: each
adjacent pair is `<` in the `Endpoint` order, or is a same-valued
closed-closed singleton pair (equal under the `Endpoint` order, so strict
`<` is unattainable there). -/
theorem claim_C5_amended {T : Type} [LinearOrder T] (l : List (Endpoint T))
    (h : gapsInitEp l = .ok l) : sortedOk l = true := by
  unfold gapsInitEp gapsInit at h
  split at h
  · exact Except.noConfusion h
  · cases hx : promote 0 (l.map Sum.inr) with
    | error e =>
      rw [hx] at h
      simp only [except_bind_error] at h
      exact Except.noConfusion h
    | ok es =>
      rw [hx] at h
      simp only [except_bind_ok] at h
      have hes : es = l := promote_map_inr_ok 0 l es hx
      subst hes
      exact fixLoop_ok_self_sortedOk es h

/-- Witness for the amended C5 at the singleton `Gaps([0, 0])`. -/
theorem claim_C5_amended_witness :
    sortedOk ([⟨0, .closedL⟩, ⟨0, .closedR⟩] : List (Endpoint ℤ)) = true :=
  claim_C5_amended [⟨0, .closedL⟩, ⟨0, .closedR⟩] rfl

/-- A boundary is a right boundary exactly when it is not a left one. -/
theorem is_right_eq_not_is_left {T : Type} (e : Endpoint T) :
    e.is_right = !e.is_left := by
  obtain ⟨v, bd⟩ := e
  cases bd <;> rfl

/-- Promotion without side checks leaves an all-endpoints list unchanged. -/
theorem promoteF_map_inr {T : Type} :
    ∀ (i : Nat) (l : List (Endpoint T)), promoteF i (l.map Sum.inr) = l := by
  intro i l
  induction l generalizing i with
  | nil => rfl
  | cons e rest ih => simp only [List.map_cons, promoteF, ih]

/-- An alternating endpoint list has no wrong-side endpoint, starting from an
index of matching parity. -/
theorem wrongSideB_map_inr {T : Type} :
    ∀ (l : List (Endpoint T)) (i : Nat) (b : Bool), altB b l = true →
      b = decide (i % 2 = 0) → wrongSideB i (l.map Sum.inr) = false := by
  intro l
  induction l with
  | nil => intros; rfl
  | cons e rest ih =>
    intro i b halt hb
    simp only [altB, Bool.and_eq_true] at halt
    obtain ⟨hside, hrest⟩ := halt
    simp only [List.map_cons, wrongSideB]
    cases b with
    | true =>
      have hi : i % 2 = 0 := by simpa using hb.symm
      have hleft : e.is_left = true := by simpa using hside
      have hright : e.is_right = false := by
        rw [is_right_eq_not_is_left, hleft]
        rfl
      have hi1 : decide (i % 2 = 1) = false := by
        simp only [decide_eq_false_iff_not]
        omega
      rw [hright, hi1]
      simp only [Bool.and_false, Bool.false_and, Bool.false_or]
      exact ih (i + 1) false hrest (by
        have h2 : (i + 1) % 2 = 1 := by omega
        rw [h2]
        rfl)
    | false =>
      have hi : i % 2 = 1 := by
        have h3 := hb.symm
        simp only [decide_eq_false_iff_not] at h3
        omega
      have hright : e.is_right = true := by simpa using hside
      have hleft : e.is_left = false := by
        have := is_right_eq_not_is_left e
        rw [hright] at this
        cases hle : e.is_left
        · rfl
        · rw [hle] at this
          exact absurd this.symm (by decide)
      have hi0 : decide (i % 2 = 0) = false := by
        simp only [decide_eq_false_iff_not]
        omega
      rw [hleft, hi0]
      simp only [Bool.and_false, Bool.false_and, Bool.false_or]
      exact ih (i + 1) true hrest (by
        have h2 : (i + 1) % 2 = 0 := by omega
        simp [h2])

/-- A sorted-and-minimal adjacent pair is never `>` in the endpoint order. -/
theorem adjOK_not_gt {T : Type} [LinearOrder T] (a b : Endpoint T)
    (h : adjOK a b = true) : epGT a b = false := by
  unfold adjOK at h
  simp only [Bool.or_eq_true, Bool.and_eq_true, decide_eq_true_eq] at h
  rcases h with hlt | ⟨heq, hcombo⟩
  · have hLT : epLT a b = true := by
      unfold epLT
      rw [if_pos (ne_of_lt hlt)]
      simpa using hlt
    unfold epGT
    rw [hLT]
    rfl
  · obtain ⟨va, ba⟩ := a
    obtain ⟨vb, bb⟩ := b
    simp only at heq
    subst heq
    cases ba <;> cases bb <;>
      simp_all [comboOK, epGT, epLT, epEq, boundaryOrder]

/-- A chain of sorted-and-minimal adjacent pairs passes the fix-up loop
unchanged. -/
theorem fixLoop_ok_of_chainB {T : Type} [LinearOrder T] :
    ∀ l : List (Endpoint T), chainB l = true → fixLoop l = .ok l := by
  intro l
  induction l using fixLoop.induct with
  | case1 a b rest hgt =>
    intro hch
    simp only [chainB, Bool.and_eq_true] at hch
    rw [adjOK_not_gt a b hch.1] at hgt
    exact Bool.noConfusion hgt
  | case2 a b rest hgt hdel ih =>
    intro hch
    simp only [chainB, Bool.and_eq_true] at hch
    have h2 := hch.1
    unfold adjOK at h2
    simp only [Bool.or_eq_true, Bool.and_eq_true, decide_eq_true_eq] at h2
    rcases h2 with hlt | ⟨_, hcombo⟩
    · exact absurd hdel.1 (ne_of_lt hlt)
    · rw [hdel.2] at hcombo
      exact Bool.noConfusion hcombo
  | case3 a b rest hgt hdel ih =>
    intro hch
    simp only [chainB, Bool.and_eq_true] at hch
    simp only [fixLoop, if_neg hgt, if_neg hdel, ih hch.2, except_bind_ok]
  | case4 l hne =>
    intro _
    match l, hne with
    | [], _ => rfl
    | [x], _ => rfl
    | a :: b :: rest, hne => exact absurd rfl (hne a b rest)

/-- A valid endpoint list passes `Gaps.__init__` unchanged. -/
theorem valid_gapsInitEp {T : Type} [LinearOrder T] (l : List (Endpoint T))
    (h : validB l = true) : gapsInitEp l = .ok l := by
  unfold validB at h
  simp only [Bool.and_eq_true, decide_eq_true_eq] at h
  obtain ⟨⟨heven, halt⟩, hchain⟩ := h
  unfold gapsInitEp gapsInit
  rw [if_neg (by rw [List.length_map]; omega)]
  rw [promote_ok_eq 0 _ (wrongSideB_map_inr l 0 true halt (by simp))]
  simp only [except_bind_ok, promoteF_map_inr]
  exact fixLoop_ok_of_chainB l hchain

/-- The only error `_to_number` raises is the number-parse `ValueError`. -/
theorem toNumber_error_classify (cs : List Char) (e : PyErr) :
    toNumber cs = .error e → e = .badNumber := by
  intro h
  unfold toNumber at h
  split at h
  all_goals try split_ifs at h
  all_goals
    first
      | exact Except.noConfusion h
      | (simp only [Except.error.injEq] at h; exact h.symm)

/-- A token branch that binds `_to_number` and then succeeds can only fail
with `_to_number`'s error. -/
theorem do_toNumber_error (cs : List Char) (k : XInt → List (Endpoint XInt))
    (e : PyErr) :
    (do let v ← toNumber cs; Except.ok (k v)) = .error e → e = .badNumber := by
  intro h
  cases htn : toNumber cs with
  | error e2 =>
    rw [htn] at h
    simp only [except_bind_error, Except.error.injEq] at h
    exact h ▸ toNumber_error_classify cs e2 htn
  | ok v =>
    rw [htn] at h
    simp only [except_bind_ok] at h
    exact Except.noConfusion h

/-- The only errors a token parse raises are the invalid-endpoint and
number-parse `ValueError`s. -/
theorem parseToken_error_classify (t : List Char) (e : PyErr) :
    parseToken t = .error e → e = .invalidEndpoint ∨ e = .badNumber := by
  intro h
  unfold parseToken at h
  split_ifs at h
  all_goals try exact Or.inr (do_toNumber_error _ _ e h)
  all_goals simp only [Except.error.injEq] at h
  all_goals exact Or.inl h.symm

/-- The only errors the token loop raises are those of single tokens. -/
theorem parseTokens_error_classify :
    ∀ (ts : List (List Char)) (e : PyErr), parseTokens ts = .error e →
      e = .invalidEndpoint ∨ e = .badNumber := by
  intro ts
  induction ts with
  | nil =>
    intro e h
    exact Except.noConfusion h
  | cons t ts ih =>
    intro e h
    simp only [parseTokens] at h
    cases ht : parseToken t with
    | error e2 =>
      rw [ht] at h
      simp only [except_bind_error, Except.error.injEq] at h
      exact h ▸ parseToken_error_classify t e2 ht
    | ok es =>
      rw [ht] at h
      simp only [except_bind_ok] at h
      cases hr : parseTokens ts with
      | error e3 =>
        rw [hr] at h
        simp only [except_bind_error, Except.error.injEq] at h
        exact h ▸ ih e3 hr
      | ok rest =>
        rw [hr] at h
        simp only [except_bind_ok] at h
        exact Except.noConfusion h

/-- C9: `from_string` applied to the empty string fails with the
`IndexError` of the unguarded `gaps[0]`, not with the documented parse
`ValueError`; and for every non-empty string the result is never an
`IndexError` (the brace check and everything after it raise only
`ValueError`s). -/
theorem claim_C9_empty_string_index_error :
    fromString [] = .error .indexError ∧
    ∀ (g : List Char), g ≠ [] → fromString g ≠ .error .indexError := by
  refine ⟨rfl, ?_⟩
  intro g hg h
  match g, hg with
  | c :: rest, _ =>
    simp only [fromString] at h
    split_ifs at h
    all_goals try exact Except.noConfusion h
    all_goals try (simp only [Except.error.injEq] at h; exact PyErr.noConfusion h)
    split at h
    · rename_i e heq
      simp only [Except.error.injEq] at h
      rcases parseTokens_error_classify _ e heq with h2 | h2
      · exact PyErr.noConfusion (h ▸ h2)
      · exact PyErr.noConfusion (h ▸ h2)
    · rename_i eps heq
      rcases gapsInit_error_classify (eps.map Sum.inr) _ h with h2 | h2 | h2 | h2 <;>
        exact PyErr.noConfusion h2

/-- Witness for C9's non-empty part at the string of the empty set. -/
theorem claim_C9_witness :
    fromString [] = .error .indexError ∧
    fromString ['{', '}'] ≠ .error .indexError :=
  ⟨claim_C9_empty_string_index_error.1,
   claim_C9_empty_string_index_error.2 ['{', '}'] (by simp)⟩

/-- Parsing back the rendered token list of an even-length alternating
endpoint list recovers the list. -/
theorem parseTokens_renderPairs :
    ∀ l : List (Endpoint XInt), l.length % 2 = 0 → altB true l = true →
      parseTokens (renderPairs l) = .ok l := by
  intro l
  induction l using renderPairs.induct with
  | case1 a b rest heq ih =>
    intro hlen halt
    obtain ⟨va, ba⟩ := a
    obtain ⟨vb, bb⟩ := b
    simp only [altB, Bool.not_true, Bool.not_false, Bool.false_eq_true, if_true,
      if_false, Bool.and_eq_true] at halt
    obtain ⟨ha, hb2, hrest⟩ := halt
    have heq2 := heq
    unfold epEq at heq2
    simp only [Bool.and_eq_true, decide_eq_true_eq] at heq2
    obtain ⟨hval, hrank⟩ := heq2
    cases ba with
    | openR => exact absurd ha (by simp [Endpoint.is_left])
    | closedR => exact absurd ha (by simp [Endpoint.is_left])
    | openL =>
      cases bb with
      | openL => exact absurd hb2 (by simp [Endpoint.is_right])
      | closedL => exact absurd hb2 (by simp [Endpoint.is_right])
      | openR => simp [boundaryOrder] at hrank
      | closedR => simp [boundaryOrder] at hrank
    | closedL =>
      cases bb with
      | openL => exact absurd hb2 (by simp [Endpoint.is_right])
      | closedL => exact absurd hb2 (by simp [Endpoint.is_right])
      | openR => simp [boundaryOrder] at hrank
      | closedR =>
        subst hval
        simp only [renderPairs, if_pos heq, parseTokens]
        rw [parseToken_singleton va,
          ih (by simp only [List.length_cons] at hlen; omega) hrest]
        simp only [except_bind_ok]
        rfl
  | case2 a b rest heq ih =>
    intro hlen halt
    obtain ⟨va, ba⟩ := a
    obtain ⟨vb, bb⟩ := b
    simp only [altB, Bool.not_true, Bool.not_false, Bool.false_eq_true, if_true,
      if_false, Bool.and_eq_true] at halt
    obtain ⟨ha, hb2, hrest⟩ := halt
    simp only [renderPairs, if_neg heq, parseTokens]
    rw [parseToken_left va ba ha, parseToken_right vb bb hb2,
      ih (by simp only [List.length_cons] at hlen; omega) hrest]
    simp only [except_bind_ok]
    rfl
  | case3 l hne =>
    intro hlen _
    match l, hne with
    | [], _ => rfl
    | [x], _ => exact absurd hlen (by simp)
    | a :: b :: rest, hne => exact absurd rfl (hne a b rest)

/-- The closing brace of a rendered `Gaps` string is its last character. -/
theorem getLast?_brace (xs : List Char) :
    ('{' :: (xs ++ ['}'])).getLast? = some '}' := by
  rw [← List.cons_append]
  exact List.getLast?_concat _

/-- C4: for every canonical (valid) `Gaps` over the integer-with-infinities
value domain — unbounded endpoints, degenerate singleton pairs, and the
empty set included — parsing the string rendering gives back the same
`Gaps`: `from_string(str(S)) == S`.  (Finite non-integer float values are
outside the shallow embedding.) -/
theorem claim_C4_round_trip (l : List (Endpoint XInt)) (h : validB l = true) :
    fromString (toStringG l) = .ok l := by
  cases l with
  | nil => rfl
  | cons x ls =>
    have hval := h
    unfold validB at hval
    simp only [Bool.and_eq_true, decide_eq_true_eq] at hval
    obtain ⟨⟨heven, halt⟩, hchain⟩ := hval
    obtain ⟨y, ls2, rfl⟩ : ∃ y ls2, ls = y :: ls2 := by
      cases ls with
      | nil => simp at heven
      | cons y ls2 => exact ⟨y, ls2, rfl⟩
    have hts_ne : renderPairs (x :: y :: ls2) ≠ [] := by
      by_cases hq : epEq x y = true
      · simp [renderPairs, hq]
      · simp [renderPairs, hq]
    have hspace : ∀ t ∈ renderPairs (x :: y :: ls2), ∀ c ∈ t, c ≠ ' ' :=
      fun t ht c hc => ((renderPairs_tokens _ t ht).2 c hc).2
    have hcomma : ∀ t ∈ renderPairs (x :: y :: ls2), ∀ c ∈ t, c ≠ ',' :=
      fun t ht c hc => ((renderPairs_tokens _ t ht).2 c hc).1
    have hnotempty : ¬(renderPairs (x :: y :: ls2) = [[]]) := by
      intro hcon
      exact (renderPairs_tokens (x :: y :: ls2) [] (by rw [hcon]; simp)).1 rfl
    unfold toStringG
    simp only [fromString]
    rw [if_pos ⟨trivial, getLast?_brace _⟩, List.dropLast_concat]
    rw [filter_joinSep _ hspace, splitOnComma_joinSep _ hts_ne hcomma]
    rw [if_neg hnotempty]
    rw [parseTokens_renderPairs _ heven halt]
    exact valid_gapsInitEp _ h

/-- Witness for C4 at `{(-inf, 0], [1], (2, 3), [5, inf)}`. -/
theorem claim_C4_witness :
    fromString (toStringG ([⟨.ninf, .openL⟩, ⟨.fin 0, .closedR⟩,
      ⟨.fin 1, .closedL⟩, ⟨.fin 1, .closedR⟩, ⟨.fin 2, .openL⟩,
      ⟨.fin 3, .openR⟩, ⟨.fin 5, .closedL⟩, ⟨.pinf, .openR⟩] :
        List (Endpoint XInt))) =
      .ok [⟨.ninf, .openL⟩, ⟨.fin 0, .closedR⟩, ⟨.fin 1, .closedL⟩,
        ⟨.fin 1, .closedR⟩, ⟨.fin 2, .openL⟩, ⟨.fin 3, .openR⟩,
        ⟨.fin 5, .closedL⟩, ⟨.pinf, .openR⟩] :=
  claim_C4_round_trip _ (by rfl)

/-- C7: union, intersection and symmetric difference are commutative: for
every pair of valid `Gaps` `A` and `B`, `A | B == B | A`, `A & B == B & A`
and `A ^ B == B ^ A` (here as equality of the constructed results, which is
stronger than Python's rank-based `==`). -/
theorem claim_C7_or_and_xor_commutative {T : Type} [LinearOrder T]
    (a b : List (Endpoint T)) (_ha : validB a = true) (_hb : validB b = true) :
    gapsOr a b = gapsOr b a ∧ gapsAnd a b = gapsAnd b a ∧
      gapsXor a b = gapsXor b a := by
  refine ⟨?_, ?_, ?_⟩
  · unfold gapsOr
    rw [merge_comm or_ (fun x y => Bool.or_comm x y) a b]
  · unfold gapsAnd
    rw [merge_comm and_ (fun x y => Bool.and_comm x y) a b]
  · unfold gapsXor
    rw [merge_comm xor_ (fun x y => Bool.xor_comm x y) a b]

/-- Witness for C7 at `A = Gaps([0,1])`, `B = Gaps([Endpoint(0,"("), 2])`. -/
theorem claim_C7_witness :
    gapsOr ([⟨0, .closedL⟩, ⟨1, .closedR⟩] : List (Endpoint ℤ))
        [⟨0, .openL⟩, ⟨2, .closedR⟩] =
      gapsOr ([⟨0, .openL⟩, ⟨2, .closedR⟩] : List (Endpoint ℤ))
        [⟨0, .closedL⟩, ⟨1, .closedR⟩] ∧
    gapsAnd ([⟨0, .closedL⟩, ⟨1, .closedR⟩] : List (Endpoint ℤ))
        [⟨0, .openL⟩, ⟨2, .closedR⟩] =
      gapsAnd ([⟨0, .openL⟩, ⟨2, .closedR⟩] : List (Endpoint ℤ))
        [⟨0, .closedL⟩, ⟨1, .closedR⟩] ∧
    gapsXor ([⟨0, .closedL⟩, ⟨1, .closedR⟩] : List (Endpoint ℤ))
        [⟨0, .openL⟩, ⟨2, .closedR⟩] =
      gapsXor ([⟨0, .openL⟩, ⟨2, .closedR⟩] : List (Endpoint ℤ))
        [⟨0, .closedL⟩, ⟨1, .closedR⟩] :=
  claim_C7_or_and_xor_commutative [⟨0, .closedL⟩, ⟨1, .closedR⟩]
    [⟨0, .openL⟩, ⟨2, .closedR⟩] rfl rfl

/-- C10: the `_merge` loop terminates after at most `len(a) + len(b)`
iterations — each iteration consumes at least one endpoint (in the
two-cursor branch the scanline is the minimum of the two current values), so
running the fuelled loop with any fuel at least `len(a) + len(b)` gives the
result of `merge`, which supplies exactly that much fuel. -/
theorem claim_C10_merge_terminates_in_length_steps {T : Type} [LinearOrder T]
    (op : Bool → Bool → Bool) (a b : List (Endpoint T)) (fuel : Nat)
    (h : a.length + b.length ≤ fuel) :
    mergeGo op fuel none none false a b = merge a b op :=
  mergeGo_fuel op fuel (a.length + b.length) none none false a b h le_rfl

/-- Witness for C10: fuel 100 suffices for two two-endpoint lists. -/
theorem claim_C10_witness :
    mergeGo or_ 100 none none false
        ([⟨0, .closedL⟩, ⟨1, .closedR⟩] : List (Endpoint ℤ))
        [⟨2, .closedL⟩, ⟨3, .closedR⟩] =
      merge ([⟨0, .closedL⟩, ⟨1, .closedR⟩] : List (Endpoint ℤ))
        [⟨2, .closedL⟩, ⟨3, .closedR⟩] or_ :=
  claim_C10_merge_terminates_in_length_steps or_ _ _ 100 (by simp)

end MindTheGaps
